import Mathlib

/-!
Verification of `dbfread/memo.py`: readers for FPT/DBT memo files.

Bytes are modelled as natural numbers and a file as its list of bytes.
Python's buffered file object is modelled as a `FileState` (the bytes on
disk plus the current cursor); `file.read(n)` returns up to `n` bytes from
the cursor and `file.seek(p)` moves the cursor, failing on a negative
offset as the OS layer does.  Python exceptions become `Except` errors.
-/

set_option maxRecDepth 20000

namespace Dbfread

/-- State of an open memo file: the bytes on disk and the current cursor
position (`MemoFile._open` opens the file and keeps `read`/`seek` shortcuts). -/
structure FileState where
  data : List Nat
  pos : Nat
  deriving DecidableEq, Repr

/-- The errors raised by the memo readers. -/
inductive MemoError where
  /-- `IndexError('memo file got index ...')` from `VFPMemoFile.__getitem__`. -/
  | indexError (index : Int)
  /-- The OS layer rejects a seek to a negative offset. -/
  | seekError
  /-- A fixed-size header could not be unpacked because the read was short. -/
  | structError
  /-- `IOError('EOF reached while reading memo')` from `VFPMemoFile.__getitem__`. -/
  | eofError
  deriving DecidableEq, Repr

/-- A memo returned by the FoxPro reader: plain bytes (Python `bytes`) for
a text memo, or the same bytes wrapped in the `BinaryMemo` subclass of
`bytes` for any other record type. -/
inductive MemoResult where
  | text (payload : List Nat)
  | binary (payload : List Nat)
  deriving DecidableEq, Repr

/-- The byte content of a memo result; `BinaryMemo` is a subclass of `bytes`,
so both constructors carry a plain byte sequence. -/
def payloadOf : MemoResult → List Nat
  | .text p => p
  | .binary p => p

/-- `file.read(n)`: return up to `n` bytes from the cursor and advance it. -/
def fread (s : FileState) (n : Nat) : List Nat × FileState :=
  let r := (s.data.drop s.pos).take n
  (r, ⟨s.data, s.pos + r.length⟩)

/-- `file.seek(offset)`: move the cursor; a negative offset is an OS error. -/
def fseekI (s : FileState) (offset : Int) : Except MemoError FileState :=
  if offset < 0 then .error .seekError else .ok ⟨s.data, offset.toNat⟩

/-- Big-endian value of a byte list (`struct` format `>`). -/
def beNum : List Nat → Nat
  | [] => 0
  | b :: rest => b * 256 ^ rest.length + beNum rest

/-- Little-endian value of a byte list (`struct` format `<`). -/
def leNum (bs : List Nat) : Nat := beNum bs.reverse

/-- Modelled from the spec: the generic binary-structure decoder
(`StructParser`, defined in a module of this repository that is not under
`src/`) reads the fixed size of the layout and unpacks it, failing when fewer
bytes are available.  Specialised to `VFPFileHeader` (format `>LHH504s`):
512 bytes, of which bytes 6-7 are the big-endian `blocksize` field that
`VFPMemoFile._init` retains. -/
def vfpReadFileHeader (s : FileState) : Except MemoError Nat × FileState :=
  let (bs, s1) := fread s 512
  if bs.length = 512 then (.ok (beNum ((bs.drop 6).take 2)), s1)
  else (.error .structError, s1)

/-- Modelled from the spec: the binary-structure decoder specialised to
`VFPMemoHeader` (format `>LL`): 8 bytes, big-endian `type` then big-endian
`length`. -/
def vfpReadMemoHeader (s : FileState) : Except MemoError (Nat × Nat) × FileState :=
  let (bs, s1) := fread s 8
  if bs.length = 8 then (.ok (beNum (bs.take 4), beNum (bs.drop 4)), s1)
  else (.error .structError, s1)

/-- Modelled from the spec: the binary-structure decoder specialised to
`DB4MemoHeader` (format `<LL`): 8 bytes, little-endian `reserved` then
little-endian `length`. -/
def db4ReadMemoHeader (s : FileState) : Except MemoError (Nat × Nat) × FileState :=
  let (bs, s1) := fread s 8
  if bs.length = 8 then (.ok (leNum (bs.take 4), leNum (bs.drop 4)), s1)
  else (.error .structError, s1)

/-- The tagging step of `VFPMemoFile.__getitem__`: `if memo_header.type == 0x1:
return data; else: return BinaryMemo(data)`. -/
def vfpTag (ty : Nat) (payload : List Nat) : MemoResult :=
  if ty = 1 then .text payload else .binary payload

/-- `VFPMemoFile.__getitem__(index)` with the `blocksize` retained from the
file header by `_init`: reject `index <= 0`, seek to `index * blocksize`,
read the 8-byte record header, read `length` bytes, raise on a short read,
and tag the payload by the record type. -/
def vfpGet (blocksize : Nat) (s : FileState) (index : Int) :
    Except MemoError MemoResult × FileState :=
  if index ≤ 0 then (.error (.indexError index), s)
  else
    match fseekI s (index * blocksize) with
    | .error e => (.error e, s)
    | .ok s1 =>
      match vfpReadMemoHeader s1 with
      | (.error e, s2) => (.error e, s2)
      | (.ok (ty, len), s2) =>
        let (payload, s3) := fread s2 len
        if payload.length ≠ len then (.error .eofError, s3)
        else (.ok (vfpTag ty payload), s3)

/-- Net effect of Python `data.find(pat)`: the least index at which `pat`
occurs as a contiguous block of `l`, or `none` (Python's `-1`). -/
def findSub (l pat : List Nat) : Option Nat :=
  match l with
  | [] => if pat.isPrefixOf ([] : List Nat) then some 0 else none
  | a :: tl => if pat.isPrefixOf (a :: tl) then some 0 else (findSub tl pat).map (· + 1)

/-- The accumulation loop of `DB3MemoFile.__getitem__`: read 512-byte chunks;
if a read returns no bytes return the accumulated data; otherwise append the
chunk and search the accumulated data for the terminator.  The source first
assigns `eom = data.find(CHR26)` and immediately overwrites it with
`eom = data.find(CHR13 CHR10)` before the loop condition is re-evaluated, so
the net effect searches only for the two-byte CR/LF sequence.  Returns the
content together with the final cursor position. -/
def db3Loop (data : List Nat) (pos : Nat) (acc : List Nat) : List Nat × Nat :=
  if h : (data.drop pos).take 512 = [] then (acc, pos)
  else
    match findSub (acc ++ (data.drop pos).take 512) [13, 10] with
    | some eom => ((acc ++ (data.drop pos).take 512).take eom, pos + ((data.drop pos).take 512).length)
    | none => db3Loop data (pos + ((data.drop pos).take 512).length) (acc ++ (data.drop pos).take 512)
termination_by data.length - pos
decreasing_by
  have hlt : pos < data.length := by
    by_contra hcon
    push_neg at hcon
    exact h (by simp [List.drop_eq_nil_of_le hcon])
  have hpos : 0 < ((data.drop pos).take 512).length := List.length_pos.mpr h
  simp only [List.length_take, List.length_drop] at hpos ⊢
  omega

/-- `DB3MemoFile.__getitem__(index)`: seek to `index * 512` and run the
accumulation loop on an empty buffer. -/
def db3Get (s : FileState) (index : Int) : Except MemoError (List Nat) × FileState :=
  match fseekI s (index * 512) with
  | .error e => (.error e, s)
  | .ok s1 =>
    let (content, p) := db3Loop s1.data s1.pos []
    (.ok content, ⟨s1.data, p⟩)

/-- `DB4MemoFile.__getitem__(index)`: seek to `index * 512`, read the 8-byte
record header (the `reserved` field is decoded but unused), then read
`length` bytes and return them with no further check. -/
def db4Get (s : FileState) (index : Int) : Except MemoError (List Nat) × FileState :=
  match fseekI s (index * 512) with
  | .error e => (.error e, s)
  | .ok s1 =>
    match db4ReadMemoHeader s1 with
    | (.error e, s2) => (.error e, s2)
    | (.ok (_, len), s2) =>
      let (d, s3) := fread s2 len
      (.ok d, s3)

/-- `FakeMemoFile.__getitem__` returns `None` for any index; its `_open`,
`_init` and `_close` are all bound to the same no-op, so it takes no
`FileState` at all: no file is touched at construction, lookup or close. -/
def fakeGet (_ : Int) : Option (List Nat) := none

/-- The reader classes `open_memofile` can instantiate. -/
inductive ReaderKind where
  | vfp | db3 | db4
  deriving DecidableEq, Repr

/-- Python `filename.lower()` restricted to the ASCII range relevant to the
`.fpt` suffix test. -/
def lowerStr (cs : List Char) : List Char := cs.map Char.toLower

/-- `open_memofile(filename, dbversion)`: choose the FoxPro reader when the
lowered filename ends with `.fpt`; otherwise choose dBase III exactly for
version byte `0x83` and dBase IV for every other version byte. -/
def open_memofile (filename : List Char) (dbversion : Nat) : ReaderKind :=
  if (".fpt".toList).isSuffixOf (lowerStr filename) then .vfp
  else if dbversion = 0x83 then .db3
  else .db4

/-- `pat` occurs as a contiguous block of `l` at position `j`. -/
def occursAt (l pat : List Nat) (j : Nat) : Prop := (l.drop j).take pat.length = pat

/-- A sample FoxPro memo file: 512-byte header declaring blocksize 512,
then one record of type 1 (memo/text) with length 5 and payload `hello`. -/
def vfpSampleFile : List Nat :=
  List.replicate 6 0 ++ [2, 0] ++ List.replicate 504 0 ++
    [0, 0, 0, 1] ++ [0, 0, 0, 5] ++ [104, 101, 108, 108, 111]

/-- The same sample FoxPro memo file with record type 2 (object/binary). -/
def vfpSampleFileBin : List Nat :=
  List.replicate 6 0 ++ [2, 0] ++ List.replicate 504 0 ++
    [0, 0, 0, 2] ++ [0, 0, 0, 5] ++ [104, 101, 108, 108, 111]

/-- A FoxPro memo file whose record header declares length 10 while only 4
payload bytes remain before end of file. -/
def vfpTruncFile : List Nat :=
  List.replicate 6 0 ++ [2, 0] ++ List.replicate 504 0 ++
    [0, 0, 0, 1] ++ [0, 0, 0, 10] ++ [1, 2, 3, 4]

/-- A dBase III memo file: one empty block, then at block 1 the bytes
`a b 0x1A c CR LF z`; the lone `0x1A` precedes the CR/LF terminator. -/
def db3SampleFile : List Nat := List.replicate 512 0 ++ [97, 98, 26, 99, 13, 10, 122]

/-- A dBase III memo file whose block 1 content `h i 0x1A` reaches end of
file without any CR/LF terminator. -/
def db3NoTermFile : List Nat := List.replicate 512 0 ++ [104, 105, 26]

/-- A dBase IV memo file whose record header at block 1 declares length 10
while only 4 payload bytes remain before end of file. -/
def db4ShortFile : List Nat :=
  List.replicate 512 0 ++ [255, 255, 8, 8] ++ [10, 0, 0, 0] ++ [1, 2, 3, 4]

theorem occursAt_iff_prefix {l pat : List Nat} {j : Nat} :
    occursAt l pat j ↔ pat <+: l.drop j := by
  rw [occursAt, List.prefix_iff_eq_take, eq_comm]

theorem occursAt_cons_succ {a : Nat} {tl pat : List Nat} {j : Nat} :
    occursAt (a :: tl) pat (j + 1) ↔ occursAt tl pat j := by
  rw [occursAt, occursAt, List.drop_succ_cons]

theorem findSub_eq_some {l pat : List Nat} {j : Nat} (h : findSub l pat = some j) :
    occursAt l pat j ∧ ∀ i < j, ¬ occursAt l pat i := by
  induction l generalizing j with
  | nil =>
    rw [findSub] at h
    split at h
    · rename_i hpre
      have hj : j = 0 := by injection h with h2; omega
      subst hj
      have hpat : pat = [] := List.prefix_nil.mp (List.isPrefixOf_iff_prefix.mp hpre)
      exact ⟨by simp [occursAt, hpat], fun i hi => absurd hi (Nat.not_lt_zero i)⟩
    · exact absurd h (by simp)
  | cons a tl ih =>
    rw [findSub] at h
    split at h
    · rename_i hpre
      have hj : j = 0 := by injection h with h2; omega
      subst hj
      refine ⟨?_, fun i hi => absurd hi (Nat.not_lt_zero i)⟩
      rw [occursAt, List.drop_zero]
      exact (List.prefix_iff_eq_take.mp (List.isPrefixOf_iff_prefix.mp hpre)).symm
    · rename_i hpre
      rw [Option.map_eq_some'] at h
      obtain ⟨j0, hj0, hjeq⟩ := h
      obtain ⟨hocc, hmin⟩ := ih hj0
      subst hjeq
      refine ⟨occursAt_cons_succ.mpr hocc, ?_⟩
      intro i hi
      match i with
      | 0 =>
        intro hocc0
        rw [occursAt, List.drop_zero] at hocc0
        exact hpre (List.isPrefixOf_iff_prefix.mpr (List.prefix_iff_eq_take.mpr hocc0.symm))
      | i0 + 1 =>
        intro hocc1
        exact hmin i0 (by omega) (occursAt_cons_succ.mp hocc1)

theorem findSub_eq_none {l pat : List Nat} (h : findSub l pat = none) :
    ∀ j, ¬ occursAt l pat j := by
  induction l with
  | nil =>
    rw [findSub] at h
    split at h
    · exact absurd h (by simp)
    · rename_i hpre
      intro j hocc
      have : pat = [] := by
        have := congrArg List.length hocc
        simp at this
        exact List.length_eq_zero.mp (by omega)
      exact hpre (List.isPrefixOf_iff_prefix.mpr (by simp [this]))
  | cons a tl ih =>
    rw [findSub] at h
    split at h
    · exact absurd h (by simp)
    · rename_i hpre
      rw [Option.map_eq_none'] at h
      intro j
      match j with
      | 0 =>
        intro hocc0
        rw [occursAt, List.drop_zero] at hocc0
        exact hpre (List.isPrefixOf_iff_prefix.mpr (List.prefix_iff_eq_take.mpr hocc0.symm))
      | j0 + 1 =>
        intro hocc1
        exact ih h j0 (occursAt_cons_succ.mp hocc1)

theorem findSub_eq_some_of {l pat : List Nat} {j : Nat} (hocc : occursAt l pat j)
    (hmin : ∀ i < j, ¬ occursAt l pat i) : findSub l pat = some j := by
  cases h : findSub l pat with
  | none => exact absurd hocc (findSub_eq_none h j)
  | some j2 =>
    obtain ⟨hocc2, hmin2⟩ := findSub_eq_some h
    rcases Nat.lt_trichotomy j j2 with hlt | heq | hgt
    · exact absurd hocc (hmin2 j hlt)
    · rw [heq]
    · exact absurd hocc2 (hmin j2 hgt)

theorem occursAt_take_iff {l pat : List Nat} {n j : Nat} (h : j + pat.length ≤ n) :
    occursAt (l.take n) pat j ↔ occursAt l pat j := by
  rw [occursAt, occursAt, List.drop_take, List.take_take, Nat.min_eq_left (by omega)]

theorem occursAt_length {l pat : List Nat} {j : Nat} (hp : pat ≠ [])
    (h : occursAt l pat j) : j + pat.length ≤ l.length := by
  rw [occursAt] at h
  have hlen := congrArg List.length h
  simp only [List.length_take, List.length_drop] at hlen
  have hple : 0 < pat.length := List.length_pos.mpr hp
  omega

theorem db3Loop_content (data : List Nat) (pos0 : Nat) :
    ∀ k m, (data.drop pos0).length - m = k → m ≤ (data.drop pos0).length →
    findSub ((data.drop pos0).take m) [13, 10] = none →
    (db3Loop data (pos0 + m) ((data.drop pos0).take m)).1 =
      (match findSub (data.drop pos0) [13, 10] with
       | some j => (data.drop pos0).take j
       | none => data.drop pos0) := by
  intro k
  induction k using Nat.strong_induction_on with
  | _ k ih =>
    intro m hk hm hacc
    rw [db3Loop]
    have hchunk : (data.drop (pos0 + m)).take 512 = ((data.drop pos0).drop m).take 512 := by
      rw [List.drop_drop]
    split
    · rename_i h
      rw [hchunk] at h
      have hdropnil : (data.drop pos0).drop m = [] := by
        rcases List.take_eq_nil_iff.mp h with h512 | hnil
        · omega
        · exact hnil
      have hmlen : (data.drop pos0).length ≤ m := List.drop_eq_nil_iff.mp hdropnil
      have hmeq : m = (data.drop pos0).length := Nat.le_antisymm hm hmlen
      rw [hmeq, List.take_length] at hacc
      rw [hmeq, List.take_length]
      simp [hacc]
    · rename_i hne
      rw [hchunk] at hne ⊢
      have hkey : ((data.drop pos0).take m) ++ ((data.drop pos0).drop m).take 512 =
          (data.drop pos0).take (m + 512) := (List.take_add _ m 512).symm
      have hlenchunk : (((data.drop pos0).drop m).take 512).length =
          min 512 ((data.drop pos0).length - m) := by
        rw [List.length_take, List.length_drop]
      have hchlen : 0 < (((data.drop pos0).drop m).take 512).length :=
        List.length_pos.mpr hne
      have hdropne : (data.drop pos0).drop m ≠ [] := by
        intro hniln
        rw [hniln] at hne
        exact hne rfl
      have hmlt : m < (data.drop pos0).length := List.length_lt_of_drop_ne_nil hdropne
      have htake_m2 : (data.drop pos0).take (m + 512) =
          (data.drop pos0).take (m + (((data.drop pos0).drop m).take 512).length) :=
        List.take_eq_take.mpr (by omega)
      rw [hkey, htake_m2]
      split
      · rename_i eom heq
        obtain ⟨hocc, hmin⟩ := findSub_eq_some heq
        have h2 := occursAt_length (by simp) hocc
        rw [show ([13, 10] : List Nat).length = 2 from rfl] at h2
        have h3 : ((data.drop pos0).take
            (m + (((data.drop pos0).drop m).take 512).length)).length ≤
            m + (((data.drop pos0).drop m).take 512).length := by
          rw [List.length_take]; omega
        have hocc_len : eom + 2 ≤ m + (((data.drop pos0).drop m).take 512).length := by
          omega
        have hoccrest : occursAt (data.drop pos0) [13, 10] eom :=
          (occursAt_take_iff (by rw [show ([13, 10] : List Nat).length = 2 from rfl]; omega)).mp
            hocc
        have hminrest : ∀ i < eom, ¬ occursAt (data.drop pos0) [13, 10] i := by
          intro i hi hocci
          exact hmin i hi
            ((occursAt_take_iff (by rw [show ([13, 10] : List Nat).length = 2 from rfl]; omega)).mpr
              hocci)
        have hfs : findSub (data.drop pos0) [13, 10] = some eom :=
          findSub_eq_some_of hoccrest hminrest
        rw [hfs]
        show ((data.drop pos0).take
          (m + (((data.drop pos0).drop m).take 512).length)).take eom = _
        rw [List.take_take, Nat.min_eq_left (by omega)]
      · rename_i heq
        have harg : pos0 + m + (((data.drop pos0).drop m).take 512).length =
            pos0 + (m + (((data.drop pos0).drop m).take 512).length) := by omega
        rw [harg]
        exact ih ((data.drop pos0).length -
            (m + (((data.drop pos0).drop m).take 512).length))
          (by omega) _ rfl (by omega) heq

theorem db3Get_loop {data : List Nat} {pos : Nat} {index : Int} (hidx : 0 ≤ index) :
    (db3Get ⟨data, pos⟩ index).1 = .ok (db3Loop data (index * 512).toNat []).1 := by
  have hseek : ¬ index * 512 < 0 := by
    have : (0 : Int) ≤ index * 512 := mul_nonneg hidx (by norm_num)
    omega
  simp [db3Get, fseekI, hseek]

/-- The content of the dBase III reader at a nonnegative index, stated via
the accumulation loop's specification. -/
theorem db3Get_content {data : List Nat} {pos : Nat} {index : Int} (hidx : 0 ≤ index) :
    (db3Get ⟨data, pos⟩ index).1 =
      .ok (match findSub (data.drop (index * 512).toNat) [13, 10] with
           | some j => (data.drop (index * 512).toNat).take j
           | none => data.drop (index * 512).toNat) := by
  rw [db3Get_loop hidx]
  have hloop := db3Loop_content data (index * 512).toNat
    ((data.drop (index * 512).toNat).length) 0 (by omega) (by omega)
    (by rw [List.take_zero]; rfl)
  rw [Nat.add_zero, List.take_zero] at hloop
  rw [hloop]

/-- C5: for every nonnegative index, the dBase-III reader seeks to
`index * 512`, accumulates 512-byte chunks, and when the accumulated buffer
contains the two-byte terminator CR LF (first occurrence at `j`, a lone
`0x1A` byte not terminating), returns exactly the accumulated bytes
strictly before the terminator's first byte. -/
theorem db3_get_terminator (data : List Nat) (pos : Nat) (index : Int) (j : Nat)
    (hidx : 0 ≤ index)
    (hj : ((data.drop (index * 512).toNat).drop j).take 2 = [13, 10])
    (hmin : ∀ i < j, ((data.drop (index * 512).toNat).drop i).take 2 ≠ [13, 10]) :
    (db3Get ⟨data, pos⟩ index).1 = .ok ((data.drop (index * 512).toNat).take j) := by
  rw [db3Get_content hidx]
  have hfs : findSub (data.drop (index * 512).toNat) [13, 10] = some j :=
    findSub_eq_some_of hj (fun i hi hocc => hmin i hi hocc)
  rw [hfs]

theorem db3_get_terminator_witness :
    (db3Get ⟨db3SampleFile, 0⟩ 1).1 = .ok [97, 98, 26, 99] := by
  have h := db3_get_terminator db3SampleFile 0 1 4 (by decide) (by decide)
    (by decide)
  rw [h]
  rfl

/-- C6: for every nonnegative index, if end of file is reached before the
CR LF terminator is found, the dBase-III reader returns everything
accumulated so far and raises no error. -/
theorem db3_get_eof (data : List Nat) (pos : Nat) (index : Int)
    (hidx : 0 ≤ index)
    (hnone : ∀ i < (data.drop (index * 512).toNat).length,
      ((data.drop (index * 512).toNat).drop i).take 2 ≠ [13, 10]) :
    (db3Get ⟨data, pos⟩ index).1 = .ok (data.drop (index * 512).toNat) := by
  rw [db3Get_content hidx]
  have hfs : findSub (data.drop (index * 512).toNat) [13, 10] = none := by
    cases h : findSub (data.drop (index * 512).toNat) [13, 10] with
    | none => rfl
    | some j =>
      obtain ⟨hocc, _⟩ := findSub_eq_some h
      have hlen := occursAt_length (by simp) hocc
      rw [show ([13, 10] : List Nat).length = 2 from rfl] at hlen
      exact absurd hocc (hnone j (by omega))
  rw [hfs]

theorem db3_get_eof_witness :
    (db3Get ⟨db3NoTermFile, 0⟩ 1).1 = .ok [104, 105, 26] := by
  have h := db3_get_eof db3NoTermFile 0 1 (by decide) (by decide)
  rw [h]
  rfl

theorem fseekI_error {s : FileState} {off : Int} {e : MemoError}
    (h : fseekI s off = .error e) : e = .seekError := by
  rw [fseekI] at h
  split at h
  · injection h with h2
    exact h2.symm
  · cases h

theorem vfpReadMemoHeader_error {s s2 : FileState} {e : MemoError}
    (h : vfpReadMemoHeader s = (.error e, s2)) : e = .structError := by
  simp only [vfpReadMemoHeader, fread] at h
  split at h
  · simp at h
  · simp at h
    exact h.1.symm

/-- C1: for every index greater than zero and every file whose 512-byte
header declares blocksize `B`, the FoxPro reader seeks to `index * B`, reads
the 8-byte big-endian record header giving `type` and `length`, reads exactly
`length` payload bytes, and returns them text-tagged when `type = 1` and
binary-tagged (same bytes) for every other type value. -/
theorem vfp_get_ok (data : List Nat) (pos B : Nat) (index : Int) (ty len : Nat)
    (payload : List Nat)
    (hB : (vfpReadFileHeader ⟨data, 0⟩).1 = .ok B)
    (hidx : 0 < index)
    (hhdr8 : ((data.drop (index * (B : Int)).toNat).take 8).length = 8)
    (hty : ty = beNum (((data.drop (index * (B : Int)).toNat).take 8).take 4))
    (hlen : len = beNum (((data.drop (index * (B : Int)).toNat).take 8).drop 4))
    (hpay : payload = (data.drop ((index * (B : Int)).toNat + 8)).take len)
    (hfull : payload.length = len) :
    (vfpGet B ⟨data, pos⟩ index).1 =
      .ok (if ty = 1 then MemoResult.text payload else MemoResult.binary payload) := by
  have hle : ¬ index ≤ 0 := by omega
  have hseek : ¬ index * (B : Int) < 0 := by
    have : (0 : Int) ≤ index * B := mul_nonneg (by omega) (Int.natCast_nonneg B)
    omega
  subst hty hlen hpay
  simp only [vfpGet, hle, if_false, fseekI, hseek, vfpReadMemoHeader, fread, hhdr8,
    if_true, vfpTag, hfull, ne_eq, not_true_eq_false, ite_false, ite_true]

theorem vfp_get_ok_witness :
    (vfpGet 512 ⟨vfpSampleFile, 0⟩ 1).1 = .ok (MemoResult.text [104, 101, 108, 108, 111]) ∧
    (vfpGet 512 ⟨vfpSampleFileBin, 0⟩ 1).1 = .ok (MemoResult.binary [104, 101, 108, 108, 111]) := by
  constructor
  · have h := vfp_get_ok vfpSampleFile 0 512 1 1 5 [104, 101, 108, 108, 111]
      (by rfl) (by decide) (by rfl) (by rfl) (by rfl) (by rfl) (by rfl)
    simpa using h
  · have h := vfp_get_ok vfpSampleFileBin 0 512 1 2 5 [104, 101, 108, 108, 111]
      (by rfl) (by decide) (by rfl) (by rfl) (by rfl) (by rfl) (by rfl)
    simpa using h

/-- C4: for every index greater than zero, if the FoxPro record header
declares length `len` but fewer than `len` payload bytes remain before end
of file, the reader fails with the truncation error instead of returning a
short payload. -/
theorem vfp_get_truncated (data : List Nat) (pos B : Nat) (index : Int) (len : Nat)
    (hidx : 0 < index)
    (hhdr8 : ((data.drop (index * (B : Int)).toNat).take 8).length = 8)
    (hlen : len = beNum (((data.drop (index * (B : Int)).toNat).take 8).drop 4))
    (hshort : ((data.drop ((index * (B : Int)).toNat + 8)).take len).length ≠ len) :
    (vfpGet B ⟨data, pos⟩ index).1 = .error .eofError := by
  have hle : ¬ index ≤ 0 := by omega
  have hseek : ¬ index * (B : Int) < 0 := by
    have : (0 : Int) ≤ index * B := mul_nonneg (by omega) (Int.natCast_nonneg B)
    omega
  subst hlen
  simp only [vfpGet, hle, if_false, fseekI, hseek, vfpReadMemoHeader, fread, hhdr8,
    if_true, hshort, ne_eq, not_false_eq_true, ite_true, ite_false]

theorem vfp_get_truncated_witness :
    (vfpGet 512 ⟨vfpTruncFile, 0⟩ 1).1 = .error .eofError :=
  vfp_get_truncated vfpTruncFile 0 512 1 10 (by decide) (by rfl) (by rfl) (by decide)

/-- C3: the FoxPro reader fails with an index-range error exactly when
`index <= 0`; for a positive index the call proceeds past the index check
and never produces an index-range error. -/
theorem vfp_index_range (B : Nat) (s : FileState) (index : Int) :
    (∃ i, (vfpGet B s index).1 = .error (.indexError i)) ↔ index ≤ 0 := by
  constructor
  · rintro ⟨i, hi⟩
    by_contra hpos
    rw [vfpGet, if_neg hpos] at hi
    split at hi
    · rename_i e heq
      rw [fseekI_error heq] at hi
      simp at hi
    · rename_i s1 heq
      split at hi
      · rename_i e s2 heq2
        rw [vfpReadMemoHeader_error heq2] at hi
        simp at hi
      · rename_i ty len s2 heq2
        split at hi
        split at hi
        · simp at hi
        · simp at hi
  · intro h
    exact ⟨index, by simp [vfpGet, h]⟩

theorem vfp_index_range_witness :
    (∃ i, (vfpGet 512 ⟨[], 0⟩ 0).1 = .error (.indexError i)) ∧
    (∃ i, (vfpGet 512 ⟨[], 0⟩ (-1)).1 = .error (.indexError i)) ∧
    ¬ (∃ i, (vfpGet 512 ⟨[], 0⟩ 1).1 = .error (.indexError i)) := by
  refine ⟨(vfp_index_range 512 ⟨[], 0⟩ 0).mpr (by decide), ?_, ?_⟩
  · exact (vfp_index_range 512 ⟨[], 0⟩ (-1)).mpr (by decide)
  · intro hex
    have := (vfp_index_range 512 ⟨[], 0⟩ 1).mp hex
    omega

theorem fseekI_ok_data {s s1 : FileState} {off : Int} (h : fseekI s off = .ok s1) :
    s1.data = s.data := by
  rw [fseekI] at h
  split at h
  · cases h
  · injection h with h2
    rw [← h2]

theorem fread_snd_data (s : FileState) (n : Nat) : ((fread s n).2).data = s.data := rfl

theorem vfpReadMemoHeader_snd (s : FileState) :
    (vfpReadMemoHeader s).2 = ⟨s.data, s.pos + ((s.data.drop s.pos).take 8).length⟩ := by
  simp only [vfpReadMemoHeader, fread]
  split <;> rfl

theorem vfpReadMemoHeader_ok {s s2 : FileState} {ty len : Nat}
    (h : vfpReadMemoHeader s = (.ok (ty, len), s2)) :
    ty = beNum (((s.data.drop s.pos).take 8).take 4) ∧
    len = beNum (((s.data.drop s.pos).take 8).drop 4) := by
  simp only [vfpReadMemoHeader, fread] at h
  split at h
  · simp at h
    exact ⟨h.1.1.symm, h.1.2.symm⟩
  · simp at h


theorem payloadOf_vfpTag (ty : Nat) (p : List Nat) : payloadOf (vfpTag ty p) = p := by
  rw [vfpTag]
  split <;> rfl

theorem db4ReadMemoHeader_ok {s s2 : FileState} {rsv len : Nat}
    (h : db4ReadMemoHeader s = (.ok (rsv, len), s2)) :
    len = leNum (((s.data.drop s.pos).take 8).drop 4) ∧ s2 = ⟨s.data, s.pos + 8⟩ := by
  simp only [db4ReadMemoHeader, fread] at h
  split at h
  · rename_i hlen8
    simp at h
    simp only [List.length_take, List.length_drop] at hlen8
    refine ⟨h.1.2.symm, ?_⟩
    rw [← h.2]
    congr 1
    omega
  · simp at h

/-- C2 (amended): a successful FoxPro result carries exactly the record
header's declared length of payload bytes (a short read instead raises the
truncation error), while the dBase-IV reader returns exactly the bytes the
read yields, which may be fewer than the declared length, without raising
any error. -/
theorem get_length_policy :
    (∀ (data : List Nat) (pos B : Nat) (index : Int) (r : MemoResult) (t : FileState),
      vfpGet B ⟨data, pos⟩ index = (.ok r, t) →
      (payloadOf r).length =
        beNum (((data.drop (index * (B : Int)).toNat).take 8).drop 4)) ∧
    (∀ (data : List Nat) (pos : Nat) (index : Int) (bs : List Nat) (t : FileState),
      db4Get ⟨data, pos⟩ index = (.ok bs, t) →
      bs = (data.drop ((index * 512).toNat + 8)).take
        (leNum (((data.drop ((index * 512).toNat)).take 8).drop 4))) := by
  constructor
  · intro data pos B index r t hv
    rw [vfpGet] at hv
    split at hv
    · simp at hv
    · split at hv
      · simp at hv
      · rename_i s1 heq
        have hs1 : s1 = ⟨data, (index * (B : Int)).toNat⟩ := by
          rw [fseekI] at heq
          split at heq
          · cases heq
          · injection heq with h2
            exact h2.symm
        subst hs1
        split at hv
        · simp at hv
        · rename_i ty len s2 heq2
          obtain ⟨hty, hlen⟩ := vfpReadMemoHeader_ok heq2
          split at hv
          rename_i payload s3 heq3
          split at hv
          · simp at hv
          · rename_i hcond
            simp only [Prod.mk.injEq, Except.ok.injEq] at hv
            rw [← hv.1, payloadOf_vfpTag]
            simp only [Decidable.not_not] at hcond
            rw [hcond, hlen]
  · intro data pos index bs t hv
    rw [db4Get] at hv
    split at hv
    · simp at hv
    · rename_i s1 heq
      have hs1 : s1 = ⟨data, (index * 512).toNat⟩ := by
        rw [fseekI] at heq
        split at heq
        · cases heq
        · injection heq with h2
          exact h2.symm
      subst hs1
      split at hv
      · simp at hv
      · rename_i rsv len s2 heq2
        obtain ⟨hlen, hs2⟩ := db4ReadMemoHeader_ok heq2
        subst hs2
        split at hv
        rename_i d s3 heq3
        simp only [Prod.mk.injEq, Except.ok.injEq] at hv
        rw [fread] at heq3
        simp only [Prod.mk.injEq] at heq3
        dsimp only at heq3 hlen
        rw [← hv.1, ← heq3.1, hlen]

/-- C2 counterexample: on a dBase-IV file whose record header declares
length 10 with only 4 payload bytes before end of file, `get(1)` returns the
4 bytes with no error, so the content is not the declared length and no
error is raised. -/
theorem db4_short_read_cex :
    (db4Get ⟨db4ShortFile, 0⟩ 1).1 = .ok [1, 2, 3, 4] ∧
    leNum (((db4ShortFile.drop ((1 * 512 : Int)).toNat).take 8).drop 4) = 10 ∧
    ([1, 2, 3, 4] : List Nat).length ≠ 10 := by
  refine ⟨rfl, rfl, by decide⟩

theorem get_length_policy_witness :
    (payloadOf (MemoResult.text [104, 101, 108, 108, 111])).length =
      beNum (((vfpSampleFile.drop ((1 * (512 : Int)).toNat)).take 8).drop 4) ∧
    ([1, 2, 3, 4] : List Nat) = (db4ShortFile.drop (((1 : Int) * 512).toNat + 8)).take
      (leNum (((db4ShortFile.drop (((1 : Int) * 512).toNat)).take 8).drop 4)) := by
  constructor
  · exact get_length_policy.1 vfpSampleFile 0 512 1 (.text [104, 101, 108, 108, 111])
      ⟨vfpSampleFile, 525⟩ (by rfl)
  · exact get_length_policy.2 db4ShortFile 0 1 [1, 2, 3, 4] ⟨db4ShortFile, 524⟩ (by rfl)

/-- C7: the reader-selection logic chooses the FoxPro reader exactly when the
lowercased filename ends in `.fpt`, regardless of the version byte; otherwise
it chooses the dBase-III reader exactly for version byte `0x83` and the
dBase-IV reader for every other version byte. -/
theorem open_memofile_selects (filename : List Char) (v : Nat) :
    (open_memofile filename v = ReaderKind.vfp ↔
      (".fpt".toList).isSuffixOf (lowerStr filename) = true) ∧
    ((".fpt".toList).isSuffixOf (lowerStr filename) ≠ true →
      ((open_memofile filename v = ReaderKind.db3 ↔ v = 0x83) ∧
       (open_memofile filename v = ReaderKind.db4 ↔ v ≠ 0x83))) := by
  by_cases hf : (".fpt".toList).isSuffixOf (lowerStr filename) = true
  · have h1 : open_memofile filename v = ReaderKind.vfp := by
      rw [open_memofile, if_pos hf]
    exact ⟨⟨fun _ => hf, fun _ => h1⟩, fun h => absurd hf h⟩
  · have h1 : open_memofile filename v =
        (if v = 0x83 then ReaderKind.db3 else ReaderKind.db4) := by
      rw [open_memofile, if_neg hf]
    rw [h1]
    refine ⟨⟨fun h => ?_, fun h => absurd h hf⟩, fun _ => ⟨⟨fun h => ?_, fun hv => ?_⟩, ⟨fun h hv => ?_, fun hv => ?_⟩⟩⟩
    · by_cases hv : v = 0x83
      · rw [if_pos hv] at h
        cases h
      · rw [if_neg hv] at h
        cases h
    · by_contra hv
      rw [if_neg hv] at h
      cases h
    · rw [if_pos hv]
    · rw [if_pos hv] at h
      cases h
    · rw [if_neg hv]

theorem open_memofile_selects_witness :
    open_memofile "X.FPT".toList 0x83 = ReaderKind.vfp ∧
    open_memofile "x.dbt".toList 0x83 = ReaderKind.db3 ∧
    open_memofile "x.dbt".toList 0x90 = ReaderKind.db4 := by
  refine ⟨?_, ?_, ?_⟩
  · exact (open_memofile_selects "X.FPT".toList 0x83).1.mpr (by decide)
  · exact (((open_memofile_selects "x.dbt".toList 0x83).2 (by decide)).1).mpr rfl
  · exact (((open_memofile_selects "x.dbt".toList 0x90).2 (by decide)).2).mpr (by decide)

/-- C8: the null reader returns no content for every integer index,
including zero and negative values; `fakeGet` takes no file state at all,
mirroring that `FakeMemoFile` binds `_open`, `_init` and `_close` to the
same no-op and never performs file input or output. -/
theorem fake_get_none : ∀ index : Int, fakeGet index = none := fun _ => rfl

/-- C10: the binary-tagged and text-tagged results built from the same
payload bytes carry exactly those bytes, so they are equal as byte
sequences and differ only in the tag carried by the result. -/
theorem binary_text_same_bytes :
    (∀ (ty : Nat) (p : List Nat), payloadOf (vfpTag ty p) = p) ∧
    (∀ p : List Nat, vfpTag 2 p ≠ vfpTag 1 p) := by
  refine ⟨payloadOf_vfpTag, fun p h => ?_⟩
  rw [vfpTag, vfpTag] at h
  simp at h

theorem binary_text_same_bytes_witness :
    payloadOf (vfpTag 2 [104]) = [104] ∧ vfpTag 2 [104] ≠ vfpTag 1 [104] :=
  ⟨binary_text_same_bytes.1 2 [104], binary_text_same_bytes.2 [104]⟩

theorem vfpGet_fst_congr {B : Nat} {s t : FileState} (index : Int)
    (h : s.data = t.data) : (vfpGet B s index).1 = (vfpGet B t index).1 := by
  obtain ⟨d, p⟩ := s
  obtain ⟨d2, q⟩ := t
  replace h : d = d2 := h
  subst h
  by_cases hle : index ≤ 0
  · simp [vfpGet, hle]
  · by_cases hs : index * (B : Int) < 0
    · simp [vfpGet, hle, fseekI, hs]
    · simp [vfpGet, hle, fseekI, hs]

theorem db3Get_fst_congr {s t : FileState} (index : Int)
    (h : s.data = t.data) : (db3Get s index).1 = (db3Get t index).1 := by
  obtain ⟨d, p⟩ := s
  obtain ⟨d2, q⟩ := t
  replace h : d = d2 := h
  subst h
  by_cases hs : index * 512 < (0 : Int)
  · simp [db3Get, fseekI, hs]
  · simp [db3Get, fseekI, hs]

theorem db4Get_fst_congr {s t : FileState} (index : Int)
    (h : s.data = t.data) : (db4Get s index).1 = (db4Get t index).1 := by
  obtain ⟨d, p⟩ := s
  obtain ⟨d2, q⟩ := t
  replace h : d = d2 := h
  subst h
  by_cases hs : index * 512 < (0 : Int)
  · simp [db4Get, fseekI, hs]
  · simp [db4Get, fseekI, hs]

theorem vfpGet_data (B : Nat) (s : FileState) (index : Int) :
    ((vfpGet B s index).2).data = s.data := by
  rw [vfpGet]
  split
  · rfl
  · split
    · rfl
    · rename_i s1 heq
      split
      · rename_i e s2 heq2
        have hd : s2.data = s1.data := by
          rw [show s2 = (vfpReadMemoHeader s1).2 from by rw [heq2], vfpReadMemoHeader_snd]
        show s2.data = s.data
        rw [hd, fseekI_ok_data heq]
      · rename_i ty len s2 heq2
        have hd : s2.data = s1.data := by
          rw [show s2 = (vfpReadMemoHeader s1).2 from by rw [heq2], vfpReadMemoHeader_snd]
        split
        rename_i payload s3 heq3
        have hd3 : s3.data = s2.data := by
          rw [show s3 = (fread s2 len).2 from by rw [heq3]]
          exact fread_snd_data s2 len
        split
        · show s3.data = s.data
          rw [hd3, hd, fseekI_ok_data heq]
        · show s3.data = s.data
          rw [hd3, hd, fseekI_ok_data heq]

theorem db3Get_data (s : FileState) (index : Int) :
    ((db3Get s index).2).data = s.data := by
  rw [db3Get]
  split
  · rfl
  · rename_i s1 heq
    show s1.data = s.data
    exact fseekI_ok_data heq

theorem db4ReadMemoHeader_snd_data (s : FileState) :
    ((db4ReadMemoHeader s).2).data = s.data := by
  simp only [db4ReadMemoHeader, fread]
  split <;> rfl

theorem db4Get_data (s : FileState) (index : Int) :
    ((db4Get s index).2).data = s.data := by
  rw [db4Get]
  split
  · rfl
  · rename_i s1 heq
    split
    · rename_i e s2 heq2
      have hd : s2.data = s1.data := by
        rw [show s2 = (db4ReadMemoHeader s1).2 from by rw [heq2]]
        exact db4ReadMemoHeader_snd_data s1
      show s2.data = s.data
      rw [hd, fseekI_ok_data heq]
    · rename_i rsv len s2 heq2
      have hd : s2.data = s1.data := by
        rw [show s2 = (db4ReadMemoHeader s1).2 from by rw [heq2]]
        exact db4ReadMemoHeader_snd_data s1
      split
      rename_i d s3 heq3
      have hd3 : s3.data = s2.data := by
        rw [show s3 = (fread s2 len).2 from by rw [heq3]]
        exact fread_snd_data s2 len
      show s3.data = s.data
      rw [hd3, hd, fseekI_ok_data heq]

/-- C9: every reader variant is deterministic in the file bytes and the
index: a second `get` call with the same index on the unmodified file (the
state left by the first call) returns exactly the same content. -/
theorem get_deterministic :
    (∀ (B : Nat) (s : FileState) (index : Int),
      (vfpGet B (vfpGet B s index).2 index).1 = (vfpGet B s index).1) ∧
    (∀ (s : FileState) (index : Int),
      (db3Get (db3Get s index).2 index).1 = (db3Get s index).1) ∧
    (∀ (s : FileState) (index : Int),
      (db4Get (db4Get s index).2 index).1 = (db4Get s index).1) ∧
    (∀ index : Int, fakeGet index = fakeGet index) := by
  refine ⟨?_, ?_, ?_, fun _ => rfl⟩
  · intro B s index
    exact vfpGet_fst_congr index (vfpGet_data B s index)
  · intro s index
    exact db3Get_fst_congr index (db3Get_data s index)
  · intro s index
    exact db4Get_fst_congr index (db4Get_data s index)

end Dbfread
